import Mathlib

/-!
Shallow embedding of the Minesweeper AI knowledge base from
`src/minesweeper.py` (classes `Sentence` and `MinesweeperAI`), together
with proofs settling the specification claims about it.

Modelling conventions:
* a board cell is a pair of integers `(row, column)` (`Cell`);
* `Sentence.cells` is a `Finset Cell` (a Python `set`), `Sentence.count`
  is an integer (Python ints are unbounded and the code can drive the
  count negative);
* `MinesweeperAI.knowledge` is a `List Sentence` (a Python `list`,
  insertion-ordered, duplicates allowed);
* Python's `for sentence in self.knowledge: ... self.knowledge.remove(sentence)`
  loop in `mark_mine`/`mark_safe` mutates the list while iterating.  The
  iterator keeps a position counter; removing an element shifts the later
  elements down by one so the element after a removed one is skipped.
  `markLoopAux` reproduces this index-based behaviour exactly
  (`List.erase` removes the first value-equal element, matching
  `list.remove` with `Sentence.__eq__`);
* where the code iterates over a Python `set` and performs stateful marks,
  the embedding iterates over `cellsOf`, a fixed (sorted) enumeration of the
  set; the facts proved below about such folds are established element-wise
  and do not depend on the enumeration order.
-/

abbrev Cell : Type := ℤ × ℤ

/-- Row-major order on cells, used to enumerate a Python `set` of cells in a
fixed (sorted) order wherever the source iterates over one. -/
def cellLE (a b : Cell) : Prop :=
  a.1 < b.1 ∨ (a.1 = b.1 ∧ a.2 ≤ b.2)

instance : DecidableRel cellLE := fun a b =>
  decidable_of_iff (a.1 < b.1 ∨ (a.1 = b.1 ∧ a.2 ≤ b.2)) Iff.rfl

instance : IsTrans Cell cellLE :=
  ⟨by intro a b c hab hbc; unfold cellLE at *; omega⟩

instance : IsAntisymm Cell cellLE := by
  constructor
  intro a b hab hba
  obtain ⟨a1, a2⟩ := a
  obtain ⟨b1, b2⟩ := b
  unfold cellLE at *
  simp only [Prod.mk.injEq]
  omega

instance : IsTotal Cell cellLE :=
  ⟨by intro a b; unfold cellLE; omega⟩

/-- Computable enumeration of a finite set of cells, in `cellLE` order.
(`List.insertionSort` recurses structurally, so this enumeration also
evaluates inside the kernel, unlike `Finset.sort`.) -/
def cellsOf (s : Finset Cell) : List Cell :=
  Quot.liftOn s.val (fun l => l.insertionSort cellLE) fun l1 l2 h =>
    List.eq_of_perm_of_sorted
      ((List.perm_insertionSort cellLE l1).trans
        ((List.Perm.trans h (List.perm_insertionSort cellLE l2).symm)))
      (List.sorted_insertionSort cellLE l1) (List.sorted_insertionSort cellLE l2)

/-- `Sentence` from `src/minesweeper.py`: a set of cells together with the
number of mines among exactly those cells.  Equality is by cell set and
count, matching `Sentence.__eq__`. -/
structure Sentence where
  cells : Finset Cell
  count : ℤ
deriving DecidableEq

/-- `Sentence.known_mines`: if `len(self.cells) == self.count`, all cells are
mines; otherwise no information. -/
def Sentence.known_mines (s : Sentence) : Finset Cell :=
  if (s.cells.card : ℤ) = s.count then s.cells else ∅

/-- `Sentence.known_safes`: if `self.count == 0`, all cells are safe. -/
def Sentence.known_safes (s : Sentence) : Finset Cell :=
  if s.count = 0 then s.cells else ∅

/-- `Sentence.mark_mine`: if the cell is present, discard it and decrement
`count` by one (unconditionally, even when `count` is already `0`). -/
def Sentence.mark_mine (s : Sentence) (cell : Cell) : Sentence :=
  if cell ∈ s.cells then ⟨s.cells.erase cell, s.count - 1⟩ else s

/-- `Sentence.mark_safe`: if the cell is present, discard it; `count`
unchanged. -/
def Sentence.mark_safe (s : Sentence) (cell : Cell) : Sentence :=
  if cell ∈ s.cells then ⟨s.cells.erase cell, s.count⟩ else s

/-- One Python `for sentence in self.knowledge:` purge loop (the bodies of
`MinesweeperAI.mark_mine` / `mark_safe`, lines 175-178 and 186-189): visit the
element at the iterator position `k`, mutate it in place with `f`, and if its
cell set is (now) empty remove the first value-equal element from the list.
The iterator position advances by one regardless, so after a removal the
element that moved into the vacated slot is skipped.  `fuel` starts at the
initial list length, which bounds the number of iterations (positions only
advance and the list never grows). -/
def markLoopAux (f : Sentence → Sentence) : ℕ → List Sentence → ℕ → List Sentence
  | 0, l, _ => l
  | fuel + 1, l, k =>
    match l[k]? with
    | none => l
    | some s =>
      let s' := f s
      let l2 := if s'.cells = ∅ then (l.set k s').erase s' else l.set k s'
      markLoopAux f fuel l2 (k + 1)

/-- The full purge loop over a knowledge list. -/
def markLoop (f : Sentence → Sentence) (l : List Sentence) : List Sentence :=
  markLoopAux f l.length l 0

/-- `MinesweeperAI` state (`src/minesweeper.py` lines 148-167). -/
structure MinesweeperAI where
  height : ℤ
  width : ℤ
  moves_made : Finset Cell
  mines : Finset Cell
  safes : Finset Cell
  knowledge : List Sentence
deriving DecidableEq

/-- `MinesweeperAI.__init__`: empty knowledge base for an `h × w` board. -/
def initAI (h w : ℤ) : MinesweeperAI :=
  ⟨h, w, ∅, ∅, ∅, []⟩

/-- `MinesweeperAI.mark_mine` (lines 169-178): add the cell to `mines`, then
run the purge loop applying `Sentence.mark_mine` and dropping emptied
sentences (with the mutate-during-iterate semantics of the source). -/
def MinesweeperAI.mark_mine (ai : MinesweeperAI) (cell : Cell) : MinesweeperAI :=
  { ai with
    mines := insert cell ai.mines
    knowledge := markLoop (fun s => s.mark_mine cell) ai.knowledge }

/-- `MinesweeperAI.mark_safe` (lines 180-189): symmetric with `safes`. -/
def MinesweeperAI.mark_safe (ai : MinesweeperAI) (cell : Cell) : MinesweeperAI :=
  { ai with
    safes := insert cell ai.safes
    knowledge := markLoop (fun s => s.mark_safe cell) ai.knowledge }

/-- The in-bounds Moore neighborhood scan of `add_knowledge` lines 215-223
(and the identical loop of `Minesweeper.nearby_mines`, lines 65-73): the nine
cells within one row and one column, minus the cell itself, clipped to the
board bounds, in the row-major order of the Python loops. -/
def mooreNeighbors (h w : ℤ) (c : Cell) : List Cell :=
  [(c.1 - 1, c.2 - 1), (c.1 - 1, c.2), (c.1 - 1, c.2 + 1),
   (c.1, c.2 - 1), (c.1, c.2), (c.1, c.2 + 1),
   (c.1 + 1, c.2 - 1), (c.1 + 1, c.2), (c.1 + 1, c.2 + 1)].filter
    fun p => decide (p ≠ c) && decide (0 ≤ p.1 ∧ p.1 < h ∧ 0 ≤ p.2 ∧ p.2 < w)

/-- `Minesweeper.nearby_mines` (lines 54-77) for a board whose mine set is
`M`: the number of in-bounds neighbors of `c` that are mines. -/
def nearby_mines (h w : ℤ) (M : Finset Cell) (c : Cell) : ℤ :=
  ((mooreNeighbors h w c).filter fun p => decide (p ∈ M)).length

/-- Step 3 of `add_knowledge` (lines 210-239), starting from the state `ai2`
in force after `mark_safe(cell)`: partition the in-bounds neighborhood
(skipping cells known safe, decrementing the local count for cells known
mine), then either mark every remaining neighbor as a mine (when the
remaining count equals their number), mark every remaining neighbor safe
(when the remaining count is zero and some neighbor remains), or append the
new sentence to the knowledge base. -/
def integrateObservation (ai2 : MinesweeperAI) (cell : Cell) (count : ℤ) : MinesweeperAI :=
  let nbrs := mooreNeighbors ai2.height ai2.width cell
  let newCount := count - ((nbrs.filter fun p => decide (p ∉ ai2.safes ∧ p ∈ ai2.mines)).length : ℤ)
  let neighborCells := (nbrs.filter fun p => decide (p ∉ ai2.safes ∧ p ∉ ai2.mines)).toFinset
  if (neighborCells.card : ℤ) = newCount then
    (cellsOf neighborCells).foldl MinesweeperAI.mark_mine ai2
  else if newCount = 0 ∧ 0 < neighborCells.card then
    (cellsOf neighborCells).foldl MinesweeperAI.mark_safe ai2
  else
    { ai2 with knowledge := ai2.knowledge ++ [⟨neighborCells, newCount⟩] }

/-- Step 4 of `add_knowledge` (lines 241-252): one scan collecting every
sentence's `known_mines` and `known_safes`, then mark all collected mines,
then all collected safes. -/
def propagateKnown (ai3 : MinesweeperAI) : MinesweeperAI :=
  let discoveredMines := ai3.knowledge.foldl (fun acc s => acc ∪ s.known_mines) ∅
  let discoveredSafes := ai3.knowledge.foldl (fun acc s => acc ∪ s.known_safes) ∅
  let ai4 := (cellsOf discoveredMines).foldl MinesweeperAI.mark_mine ai3
  (cellsOf discoveredSafes).foldl MinesweeperAI.mark_safe ai4

/-- Accumulators of step 5 of `add_knowledge`: `new_knowledge`,
`cells_to_mark_as_safe` and `cells_to_mark_as_mines` (lines 256-258). -/
structure ResolutionAcc where
  newSentences : List Sentence
  safeCells : List Cell
  mineCells : List Cell
deriving DecidableEq

/-- The body of the double loop of step 5 (lines 259-278) for the ordered
pair `(A, B)`: skip when the sentences are (value-)equal; when
`A.cells ⊆ B.cells` derive `⟨B.cells − A.cells, B.count − A.count⟩` and
either queue its cells to be marked safe (derived count zero), queue them to
be marked mines (derived count equals derived size), or queue the sentence as
new knowledge.  No duplicate check is performed anywhere. -/
def resolvePair (A : Sentence) (acc : ResolutionAcc) (B : Sentence) : ResolutionAcc :=
  if A = B then acc
  else if A.cells ⊆ B.cells then
    let d : Sentence := ⟨B.cells \ A.cells, B.count - A.count⟩
    if d.count = 0 then { acc with safeCells := acc.safeCells ++ cellsOf d.cells }
    else if d.count = (d.cells.card : ℤ) then { acc with mineCells := acc.mineCells ++ cellsOf d.cells }
    else { acc with newSentences := acc.newSentences ++ [d] }
  else acc

/-- The double loop of step 5 over all ordered pairs of the (unchanged)
knowledge list. -/
def resolutionScan (kn : List Sentence) : ResolutionAcc :=
  kn.foldl (fun acc A => kn.foldl (resolvePair A) acc) ⟨[], [], []⟩

/-- Step 5 of `add_knowledge` (lines 254-284): run the subset-resolution scan,
extend the knowledge list with the queued new sentences, then mark the queued
mines, then the queued safes. -/
def resolveInference (ai5 : MinesweeperAI) : MinesweeperAI :=
  let r := resolutionScan ai5.knowledge
  let ai6 := { ai5 with knowledge := ai5.knowledge ++ r.newSentences }
  let ai7 := r.mineCells.foldl MinesweeperAI.mark_mine ai6
  r.safeCells.foldl MinesweeperAI.mark_safe ai7

/-- `MinesweeperAI.add_knowledge` (lines 191-294): record the move, mark the
observed cell safe, integrate the new observation, run one direct-propagation
pass, then one subset-resolution pass.  (The source performs each pass exactly
once; there is no outer loop.) -/
def MinesweeperAI.add_knowledge (ai : MinesweeperAI) (cell : Cell) (count : ℤ) : MinesweeperAI :=
  resolveInference (propagateKnown (integrateObservation
    (MinesweeperAI.mark_safe { ai with moves_made := insert cell ai.moves_made } cell) cell count))

/-- Run a sequence of observations (`add_knowledge` calls) from a state. -/
def runObs (ai : MinesweeperAI) (os : List (Cell × ℤ)) : MinesweeperAI :=
  os.foldl (fun s o => s.add_knowledge o.1 o.2) ai

/-- The observation sequence is what a Minesweeper board with mine set `M`
reports when the caller honours the documented contract of `add_knowledge`
("for a given safe cell, how many neighboring cells have mines"): every
observed cell is not a mine and every count is the true `nearby_mines`
count. -/
def TruthfulObs (M : Finset Cell) (h w : ℤ) (os : List (Cell × ℤ)) : Prop :=
  ∀ o ∈ os, o.1 ∉ M ∧ o.2 = nearby_mines h w M o.1

/-- The observation counts alone are truthful for the mine set `M` (the
observed cells themselves are allowed to be mines). -/
def TruthfulCounts (M : Finset Cell) (h w : ℤ) (os : List (Cell × ℤ)) : Prop :=
  ∀ o ∈ os, o.2 = nearby_mines h w M o.1

/-- A sentence is true of the mine placement `M`: exactly `count` of its
cells are mines. -/
def Truthful (M : Finset Cell) (s : Sentence) : Prop :=
  ((s.cells ∩ M).card : ℤ) = s.count

/-- Soundness of a knowledge-base state with respect to a mine placement:
every stored sentence is true, every cell in `safes` is not a mine, and every
cell in `mines` is a mine. -/
def Sound (M : Finset Cell) (ai : MinesweeperAI) : Prop :=
  (∀ s ∈ ai.knowledge, Truthful M s) ∧ (∀ c ∈ ai.safes, c ∉ M) ∧ ∀ c ∈ ai.mines, c ∈ M

/-- Soundness of the accumulators of the subset-resolution scan: queued new
sentences are true of `M`, queued safe cells are non-mines, queued mine cells
are mines. -/
def AccSound (M : Finset Cell) (acc : ResolutionAcc) : Prop :=
  (∀ s ∈ acc.newSentences, Truthful M s) ∧
    (∀ c ∈ acc.safeCells, c ∉ M) ∧ ∀ c ∈ acc.mineCells, c ∈ M

/-- The cell lies inside the `h × w` board. -/
def inBounds (h w : ℤ) (c : Cell) : Prop :=
  0 ≤ c.1 ∧ c.1 < h ∧ 0 ≤ c.2 ∧ c.2 < w

/-- The neighbors of `cell` not already classified safe or mine in state
`ai` (the cell set of the sentence that step 3 of `add_knowledge` builds). -/
def unclassifiedNeighbors (ai : MinesweeperAI) (cell : Cell) : Finset Cell :=
  ((mooreNeighbors ai.height ai.width cell).filter
    fun p => decide (p ∉ ai.safes ∧ p ∉ ai.mines)).toFinset

/-- The number of neighbors of `cell` already known to be mines (and not
known safe) in state `ai` — the amount by which step 3 decrements the
observed count. -/
def knownMineNeighborCount (ai : MinesweeperAI) (cell : Cell) : ℤ :=
  ((mooreNeighbors ai.height ai.width cell).filter
    fun p => decide (p ∉ ai.safes ∧ p ∈ ai.mines)).length

/-- Saturation in the sense of claim C1: no further application of direct
propagation (collecting `known_mines`/`known_safes` of any stored sentence)
or of pairwise subset-resolution over the stored sentences can mark a new
cell safe or mine or add a sentence not already present. -/
def Saturated (ai : MinesweeperAI) : Prop :=
  (∀ s ∈ ai.knowledge, s.known_mines ⊆ ai.mines ∧ s.known_safes ⊆ ai.safes) ∧
  ∀ A ∈ ai.knowledge, ∀ B ∈ ai.knowledge, A ≠ B → A.cells ⊆ B.cells →
    (B.count - A.count = 0 → B.cells \ A.cells ⊆ ai.safes) ∧
    (B.count - A.count = ((B.cells \ A.cells).card : ℤ) → B.cells \ A.cells ⊆ ai.mines) ∧
    (B.count - A.count ≠ 0 → B.count - A.count ≠ ((B.cells \ A.cells).card : ℤ) →
      Sentence.mk (B.cells \ A.cells) (B.count - A.count) ∈ ai.knowledge)

instance (M : Finset Cell) (h w : ℤ) (os : List (Cell × ℤ)) :
    Decidable (TruthfulObs M h w os) :=
  decidable_of_iff (∀ o ∈ os, o.1 ∉ M ∧ o.2 = nearby_mines h w M o.1) Iff.rfl

instance (M : Finset Cell) (h w : ℤ) (os : List (Cell × ℤ)) :
    Decidable (TruthfulCounts M h w os) :=
  decidable_of_iff (∀ o ∈ os, o.2 = nearby_mines h w M o.1) Iff.rfl

instance (h w : ℤ) (c : Cell) : Decidable (inBounds h w c) :=
  decidable_of_iff (0 ≤ c.1 ∧ c.1 < h ∧ 0 ≤ c.2 ∧ c.2 < w) Iff.rfl

instance (ai : MinesweeperAI) : Decidable (Saturated ai) :=
  haveI h1 : Decidable (∀ s ∈ ai.knowledge,
      s.known_mines ⊆ ai.mines ∧ s.known_safes ⊆ ai.safes) := inferInstance
  haveI h2 : Decidable (∀ A ∈ ai.knowledge, ∀ B ∈ ai.knowledge,
      A ≠ B → A.cells ⊆ B.cells →
      (B.count - A.count = 0 → B.cells \ A.cells ⊆ ai.safes) ∧
      (B.count - A.count = ((B.cells \ A.cells).card : ℤ) → B.cells \ A.cells ⊆ ai.mines) ∧
      (B.count - A.count ≠ 0 → B.count - A.count ≠ ((B.cells \ A.cells).card : ℤ) →
        Sentence.mk (B.cells \ A.cells) (B.count - A.count) ∈ ai.knowledge)) := inferInstance
  decidable_of_iff
    ((∀ s ∈ ai.knowledge, s.known_mines ⊆ ai.mines ∧ s.known_safes ⊆ ai.safes) ∧
      ∀ A ∈ ai.knowledge, ∀ B ∈ ai.knowledge, A ≠ B → A.cells ⊆ B.cells →
        (B.count - A.count = 0 → B.cells \ A.cells ⊆ ai.safes) ∧
        (B.count - A.count = ((B.cells \ A.cells).card : ℤ) → B.cells \ A.cells ⊆ ai.mines) ∧
        (B.count - A.count ≠ 0 → B.count - A.count ≠ ((B.cells \ A.cells).card : ℤ) →
          Sentence.mk (B.cells \ A.cells) (B.count - A.count) ∈ ai.knowledge)) Iff.rfl

/-! ### Basic facts about the embedded operations -/

theorem mem_cellsOf {s : Finset Cell} {c : Cell} : c ∈ cellsOf s ↔ c ∈ s := by
  rcases s with ⟨val, hnd⟩
  induction val using Quotient.inductionOn with
  | h l =>
    show c ∈ l.insertionSort cellLE ↔ _
    rw [(List.perm_insertionSort cellLE l).mem_iff]
    simp [Finset.mem_mk]

theorem mark_mine_height (ai : MinesweeperAI) (c : Cell) :
    (ai.mark_mine c).height = ai.height := rfl

theorem mark_mine_width (ai : MinesweeperAI) (c : Cell) :
    (ai.mark_mine c).width = ai.width := rfl

theorem mark_mine_moves (ai : MinesweeperAI) (c : Cell) :
    (ai.mark_mine c).moves_made = ai.moves_made := rfl

theorem mark_mine_safes (ai : MinesweeperAI) (c : Cell) :
    (ai.mark_mine c).safes = ai.safes := rfl

theorem mark_mine_mines (ai : MinesweeperAI) (c : Cell) :
    (ai.mark_mine c).mines = insert c ai.mines := rfl

theorem mark_safe_height (ai : MinesweeperAI) (c : Cell) :
    (ai.mark_safe c).height = ai.height := rfl

theorem mark_safe_width (ai : MinesweeperAI) (c : Cell) :
    (ai.mark_safe c).width = ai.width := rfl

theorem mark_safe_moves (ai : MinesweeperAI) (c : Cell) :
    (ai.mark_safe c).moves_made = ai.moves_made := rfl

theorem mark_safe_mines (ai : MinesweeperAI) (c : Cell) :
    (ai.mark_safe c).mines = ai.mines := rfl

theorem mark_safe_safes (ai : MinesweeperAI) (c : Cell) :
    (ai.mark_safe c).safes = insert c ai.safes := rfl

/-- Elements surviving a purge loop are original elements, possibly hit by
the in-place mutation `f`. -/
theorem markLoopAux_forall {f : Sentence → Sentence} {P : Sentence → Prop}
    (hf : ∀ s, P s → P (f s)) :
    ∀ (fuel : ℕ) (l : List Sentence) (k : ℕ), (∀ t ∈ l, P t) →
      ∀ t ∈ markLoopAux f fuel l k, P t := by
  intro fuel
  induction fuel with
  | zero => intro l k hl t ht; exact hl t ht
  | succ n ih =>
    intro l k hl t ht
    rw [markLoopAux] at ht
    cases hk : l[k]? with
    | none => rw [hk] at ht; exact hl t ht
    | some s =>
      rw [hk] at ht
      dsimp only at ht
      have hl2 : ∀ u ∈ (if (f s).cells = ∅ then (l.set k (f s)).erase (f s)
          else l.set k (f s)), P u := by
        intro u hu
        have hmem : u ∈ l.set k (f s) := by
          by_cases hc : (f s).cells = ∅
          · rw [if_pos hc] at hu
            exact List.mem_of_mem_erase hu
          · rwa [if_neg hc] at hu
        rcases List.mem_or_eq_of_mem_set hmem with h | h
        · exact hl u h
        · exact h ▸ hf s (hl s (List.getElem?_mem hk))
      exact ih _ _ hl2 t ht

theorem markLoop_forall {f : Sentence → Sentence} {P : Sentence → Prop}
    (hf : ∀ s, P s → P (f s)) {l : List Sentence} (hl : ∀ t ∈ l, P t) :
    ∀ t ∈ markLoop f l, P t :=
  markLoopAux_forall hf l.length l 0 hl

theorem markLoopAux_length_le (f : Sentence → Sentence) :
    ∀ (fuel : ℕ) (l : List Sentence) (k : ℕ),
      (markLoopAux f fuel l k).length ≤ l.length := by
  intro fuel
  induction fuel with
  | zero => intro l k; exact le_refl _
  | succ n ih =>
    intro l k
    rw [markLoopAux]
    cases hk : l[k]? with
    | none => exact le_refl _
    | some s =>
      dsimp only
      refine le_trans (ih _ _) ?_
      by_cases hc : (f s).cells = ∅
      · rw [if_pos hc]
        refine le_trans (List.erase_sublist _ _).length_le ?_
        rw [List.length_set]
      · rw [if_neg hc, List.length_set]

theorem markLoop_length_le (f : Sentence → Sentence) (l : List Sentence) :
    (markLoop f l).length ≤ l.length :=
  markLoopAux_length_le f l.length l 0

theorem foldl_safes_subset {g : MinesweeperAI → Cell → MinesweeperAI}
    (hg : ∀ s c, s.safes ⊆ (g s c).safes) :
    ∀ (cs : List Cell) (ai : MinesweeperAI), ai.safes ⊆ (cs.foldl g ai).safes := by
  intro cs
  induction cs with
  | nil => intro ai; exact subset_rfl
  | cons a t ih => intro ai; exact (hg ai a).trans (ih _)

theorem foldl_mines_subset {g : MinesweeperAI → Cell → MinesweeperAI}
    (hg : ∀ s c, s.mines ⊆ (g s c).mines) :
    ∀ (cs : List Cell) (ai : MinesweeperAI), ai.mines ⊆ (cs.foldl g ai).mines := by
  intro cs
  induction cs with
  | nil => intro ai; exact subset_rfl
  | cons a t ih => intro ai; exact (hg ai a).trans (ih _)

theorem foldl_moves_eq (g : MinesweeperAI → Cell → MinesweeperAI)
    (hg : ∀ s c, (g s c).moves_made = s.moves_made) :
    ∀ (cs : List Cell) (ai : MinesweeperAI), (cs.foldl g ai).moves_made = ai.moves_made := by
  intro cs
  induction cs with
  | nil => intro ai; rfl
  | cons a t ih => intro ai; rw [List.foldl_cons, ih, hg]

theorem foldl_height_eq (g : MinesweeperAI → Cell → MinesweeperAI)
    (hg : ∀ s c, (g s c).height = s.height) :
    ∀ (cs : List Cell) (ai : MinesweeperAI), (cs.foldl g ai).height = ai.height := by
  intro cs
  induction cs with
  | nil => intro ai; rfl
  | cons a t ih => intro ai; rw [List.foldl_cons, ih, hg]

theorem foldl_width_eq (g : MinesweeperAI → Cell → MinesweeperAI)
    (hg : ∀ s c, (g s c).width = s.width) :
    ∀ (cs : List Cell) (ai : MinesweeperAI), (cs.foldl g ai).width = ai.width := by
  intro cs
  induction cs with
  | nil => intro ai; rfl
  | cons a t ih => intro ai; rw [List.foldl_cons, ih, hg]

theorem mark_mine_safes_subset (ai : MinesweeperAI) (c : Cell) :
    ai.safes ⊆ (ai.mark_mine c).safes :=
  subset_of_eq rfl

theorem mark_safe_safes_subset (ai : MinesweeperAI) (c : Cell) :
    ai.safes ⊆ (ai.mark_safe c).safes :=
  Finset.subset_insert c ai.safes

theorem mark_mine_mines_subset (ai : MinesweeperAI) (c : Cell) :
    ai.mines ⊆ (ai.mark_mine c).mines :=
  Finset.subset_insert c ai.mines

theorem mark_safe_mines_subset (ai : MinesweeperAI) (c : Cell) :
    ai.mines ⊆ (ai.mark_safe c).mines :=
  subset_of_eq rfl

/-- After folding `mark_safe` over a list of cells, every cell of the list is
in `safes`. -/
theorem foldl_mark_safe_mem :
    ∀ (cs : List Cell) (ai : MinesweeperAI) (p : Cell), p ∈ cs →
      p ∈ (cs.foldl MinesweeperAI.mark_safe ai).safes := by
  intro cs
  induction cs with
  | nil => intro ai p hp; cases hp
  | cons a t ih =>
    intro ai p hp
    rcases List.mem_cons.mp hp with h | h
    · subst h
      exact foldl_safes_subset mark_safe_safes_subset t _ (Finset.mem_insert_self p ai.safes)
    · exact ih _ p h

/-- After folding `mark_mine` over a list of cells, every cell of the list is
in `mines`. -/
theorem foldl_mark_mine_mem :
    ∀ (cs : List Cell) (ai : MinesweeperAI) (p : Cell), p ∈ cs →
      p ∈ (cs.foldl MinesweeperAI.mark_mine ai).mines := by
  intro cs
  induction cs with
  | nil => intro ai p hp; cases hp
  | cons a t ih =>
    intro ai p hp
    rcases List.mem_cons.mp hp with h | h
    · subst h
      exact foldl_mines_subset mark_mine_mines_subset t _ (Finset.mem_insert_self p ai.mines)
    · exact ih _ p h

theorem integrateObservation_safes_subset (ai2 : MinesweeperAI) (cell : Cell) (count : ℤ) :
    ai2.safes ⊆ (integrateObservation ai2 cell count).safes := by
  unfold integrateObservation
  dsimp only
  split_ifs
  · exact foldl_safes_subset mark_mine_safes_subset _ _
  · exact foldl_safes_subset mark_safe_safes_subset _ _
  · exact subset_rfl

theorem integrateObservation_mines_subset (ai2 : MinesweeperAI) (cell : Cell) (count : ℤ) :
    ai2.mines ⊆ (integrateObservation ai2 cell count).mines := by
  unfold integrateObservation
  dsimp only
  split_ifs
  · exact foldl_mines_subset mark_mine_mines_subset _ _
  · exact foldl_mines_subset mark_safe_mines_subset _ _
  · exact subset_rfl

theorem integrateObservation_moves (ai2 : MinesweeperAI) (cell : Cell) (count : ℤ) :
    (integrateObservation ai2 cell count).moves_made = ai2.moves_made := by
  unfold integrateObservation
  dsimp only
  split_ifs
  · exact foldl_moves_eq MinesweeperAI.mark_mine (fun s c => rfl) _ _
  · exact foldl_moves_eq MinesweeperAI.mark_safe (fun s c => rfl) _ _
  · rfl

theorem integrateObservation_height (ai2 : MinesweeperAI) (cell : Cell) (count : ℤ) :
    (integrateObservation ai2 cell count).height = ai2.height := by
  unfold integrateObservation
  dsimp only
  split_ifs
  · exact foldl_height_eq MinesweeperAI.mark_mine (fun s c => rfl) _ _
  · exact foldl_height_eq MinesweeperAI.mark_safe (fun s c => rfl) _ _
  · rfl

theorem integrateObservation_width (ai2 : MinesweeperAI) (cell : Cell) (count : ℤ) :
    (integrateObservation ai2 cell count).width = ai2.width := by
  unfold integrateObservation
  dsimp only
  split_ifs
  · exact foldl_width_eq MinesweeperAI.mark_mine (fun s c => rfl) _ _
  · exact foldl_width_eq MinesweeperAI.mark_safe (fun s c => rfl) _ _
  · rfl

theorem propagateKnown_safes_subset (ai3 : MinesweeperAI) :
    ai3.safes ⊆ (propagateKnown ai3).safes := by
  unfold propagateKnown
  dsimp only
  exact (foldl_safes_subset mark_mine_safes_subset _ _).trans
    (foldl_safes_subset mark_safe_safes_subset _ _)

theorem propagateKnown_mines_subset (ai3 : MinesweeperAI) :
    ai3.mines ⊆ (propagateKnown ai3).mines := by
  unfold propagateKnown
  dsimp only
  exact (foldl_mines_subset mark_mine_mines_subset _ _).trans
    (foldl_mines_subset mark_safe_mines_subset _ _)

theorem propagateKnown_moves (ai3 : MinesweeperAI) :
    (propagateKnown ai3).moves_made = ai3.moves_made := by
  unfold propagateKnown
  dsimp only
  rw [foldl_moves_eq MinesweeperAI.mark_safe (fun s c => rfl), foldl_moves_eq MinesweeperAI.mark_mine (fun s c => rfl)]

theorem propagateKnown_height (ai3 : MinesweeperAI) :
    (propagateKnown ai3).height = ai3.height := by
  unfold propagateKnown
  dsimp only
  rw [foldl_height_eq MinesweeperAI.mark_safe (fun s c => rfl), foldl_height_eq MinesweeperAI.mark_mine (fun s c => rfl)]

theorem propagateKnown_width (ai3 : MinesweeperAI) :
    (propagateKnown ai3).width = ai3.width := by
  unfold propagateKnown
  dsimp only
  rw [foldl_width_eq MinesweeperAI.mark_safe (fun s c => rfl), foldl_width_eq MinesweeperAI.mark_mine (fun s c => rfl)]

theorem resolveInference_safes_subset (ai5 : MinesweeperAI) :
    ai5.safes ⊆ (resolveInference ai5).safes := by
  unfold resolveInference
  dsimp only
  have h1 := foldl_safes_subset mark_mine_safes_subset
    (resolutionScan ai5.knowledge).mineCells
    { ai5 with knowledge := ai5.knowledge ++ (resolutionScan ai5.knowledge).newSentences }
  have h2 := foldl_safes_subset mark_safe_safes_subset
    (resolutionScan ai5.knowledge).safeCells
    (List.foldl MinesweeperAI.mark_mine
      { ai5 with knowledge := ai5.knowledge ++ (resolutionScan ai5.knowledge).newSentences }
      (resolutionScan ai5.knowledge).mineCells)
  exact subset_trans h1 h2

theorem resolveInference_mines_subset (ai5 : MinesweeperAI) :
    ai5.mines ⊆ (resolveInference ai5).mines := by
  unfold resolveInference
  dsimp only
  have h1 := foldl_mines_subset mark_mine_mines_subset
    (resolutionScan ai5.knowledge).mineCells
    { ai5 with knowledge := ai5.knowledge ++ (resolutionScan ai5.knowledge).newSentences }
  have h2 := foldl_mines_subset mark_safe_mines_subset
    (resolutionScan ai5.knowledge).safeCells
    (List.foldl MinesweeperAI.mark_mine
      { ai5 with knowledge := ai5.knowledge ++ (resolutionScan ai5.knowledge).newSentences }
      (resolutionScan ai5.knowledge).mineCells)
  exact subset_trans h1 h2

theorem resolveInference_moves (ai5 : MinesweeperAI) :
    (resolveInference ai5).moves_made = ai5.moves_made := by
  unfold resolveInference
  dsimp only
  rw [foldl_moves_eq MinesweeperAI.mark_safe (fun s c => rfl), foldl_moves_eq MinesweeperAI.mark_mine (fun s c => rfl)]

theorem resolveInference_height (ai5 : MinesweeperAI) :
    (resolveInference ai5).height = ai5.height := by
  unfold resolveInference
  dsimp only
  rw [foldl_height_eq MinesweeperAI.mark_safe (fun s c => rfl), foldl_height_eq MinesweeperAI.mark_mine (fun s c => rfl)]

theorem resolveInference_width (ai5 : MinesweeperAI) :
    (resolveInference ai5).width = ai5.width := by
  unfold resolveInference
  dsimp only
  rw [foldl_width_eq MinesweeperAI.mark_safe (fun s c => rfl), foldl_width_eq MinesweeperAI.mark_mine (fun s c => rfl)]

theorem add_knowledge_moves (ai : MinesweeperAI) (cell : Cell) (count : ℤ) :
    (ai.add_knowledge cell count).moves_made = insert cell ai.moves_made := by
  unfold MinesweeperAI.add_knowledge
  rw [resolveInference_moves, propagateKnown_moves, integrateObservation_moves]
  rfl

theorem add_knowledge_height (ai : MinesweeperAI) (cell : Cell) (count : ℤ) :
    (ai.add_knowledge cell count).height = ai.height := by
  unfold MinesweeperAI.add_knowledge
  rw [resolveInference_height, propagateKnown_height, integrateObservation_height]
  rfl

theorem add_knowledge_width (ai : MinesweeperAI) (cell : Cell) (count : ℤ) :
    (ai.add_knowledge cell count).width = ai.width := by
  unfold MinesweeperAI.add_knowledge
  rw [resolveInference_width, propagateKnown_width, integrateObservation_width]
  rfl

theorem add_knowledge_safes_subset (ai : MinesweeperAI) (cell : Cell) (count : ℤ) :
    insert cell ai.safes ⊆ (ai.add_knowledge cell count).safes := by
  unfold MinesweeperAI.add_knowledge
  refine subset_trans ?_ (subset_trans (integrateObservation_safes_subset _ _ _)
    (subset_trans (propagateKnown_safes_subset _) (resolveInference_safes_subset _)))
  exact subset_rfl

theorem add_knowledge_mines_subset (ai : MinesweeperAI) (cell : Cell) (count : ℤ) :
    ai.mines ⊆ (ai.add_knowledge cell count).mines := by
  unfold MinesweeperAI.add_knowledge
  refine subset_trans ?_ (subset_trans (integrateObservation_mines_subset _ _ _)
    (subset_trans (propagateKnown_mines_subset _) (resolveInference_mines_subset _)))
  exact subset_rfl

/-! ### Soundness of the operations with respect to a mine placement -/

theorem Truthful.mark_mine {M : Finset Cell} {s : Sentence} {c : Cell}
    (hc : c ∈ M) (ht : Truthful M s) : Truthful M (s.mark_mine c) := by
  unfold Truthful Sentence.mark_mine at *
  by_cases hm : c ∈ s.cells
  · rw [if_pos hm]
    dsimp only
    have hmem : c ∈ s.cells ∩ M := Finset.mem_inter.mpr ⟨hm, hc⟩
    have h1 : s.cells.erase c ∩ M = (s.cells ∩ M).erase c := by
      ext x
      simp only [Finset.mem_inter, Finset.mem_erase]
      tauto
    have hpos : 1 ≤ (s.cells ∩ M).card := Finset.card_pos.mpr ⟨c, hmem⟩
    rw [h1, Finset.card_erase_of_mem hmem, Nat.cast_sub hpos, ht]
    simp
  · rw [if_neg hm]
    exact ht

theorem Truthful.mark_safe {M : Finset Cell} {s : Sentence} {c : Cell}
    (hc : c ∉ M) (ht : Truthful M s) : Truthful M (s.mark_safe c) := by
  unfold Truthful Sentence.mark_safe at *
  by_cases hm : c ∈ s.cells
  · rw [if_pos hm]
    dsimp only
    have h1 : s.cells.erase c ∩ M = s.cells ∩ M := by
      ext x
      simp only [Finset.mem_inter, Finset.mem_erase]
      constructor
      · rintro ⟨⟨_, hx⟩, hxM⟩
        exact ⟨hx, hxM⟩
      · rintro ⟨hx, hxM⟩
        exact ⟨⟨fun he => hc (he ▸ hxM), hx⟩, hxM⟩
    rw [h1, ht]
  · rw [if_neg hm]
    exact ht

theorem sound_mark_mine {M : Finset Cell} {ai : MinesweeperAI} {c : Cell}
    (hc : c ∈ M) (hs : Sound M ai) : Sound M (ai.mark_mine c) := by
  obtain ⟨hk, hsafe, hmine⟩ := hs
  refine ⟨?_, hsafe, ?_⟩
  · exact markLoop_forall (fun s ht => Truthful.mark_mine hc ht) hk
  · intro x hx
    rcases Finset.mem_insert.mp hx with h | h
    · exact h ▸ hc
    · exact hmine x h

theorem sound_mark_safe {M : Finset Cell} {ai : MinesweeperAI} {c : Cell}
    (hc : c ∉ M) (hs : Sound M ai) : Sound M (ai.mark_safe c) := by
  obtain ⟨hk, hsafe, hmine⟩ := hs
  refine ⟨?_, ?_, hmine⟩
  · exact markLoop_forall (fun s ht => Truthful.mark_safe hc ht) hk
  · intro x hx
    rcases Finset.mem_insert.mp hx with h | h
    · exact h ▸ hc
    · exact hsafe x h

theorem sound_foldl_mark_mine {M : Finset Cell} :
    ∀ (cs : List Cell) (ai : MinesweeperAI), (∀ c ∈ cs, c ∈ M) → Sound M ai →
      Sound M (cs.foldl MinesweeperAI.mark_mine ai) := by
  intro cs
  induction cs with
  | nil => intro ai _ hs; exact hs
  | cons a t ih =>
    intro ai hcs hs
    exact ih _ (fun c hc => hcs c (List.mem_cons_of_mem a hc))
      (sound_mark_mine (hcs a (List.mem_cons_self a t)) hs)

theorem sound_foldl_mark_safe {M : Finset Cell} :
    ∀ (cs : List Cell) (ai : MinesweeperAI), (∀ c ∈ cs, c ∉ M) → Sound M ai →
      Sound M (cs.foldl MinesweeperAI.mark_safe ai) := by
  intro cs
  induction cs with
  | nil => intro ai _ hs; exact hs
  | cons a t ih =>
    intro ai hcs hs
    exact ih _ (fun c hc => hcs c (List.mem_cons_of_mem a hc))
      (sound_mark_safe (hcs a (List.mem_cons_self a t)) hs)

/-- A sentence true of `M` whose `known_mines` is nonempty pins down mines:
every cell it returns is a mine of `M`. -/
theorem known_mines_subset_mines {M : Finset Cell} {s : Sentence}
    (ht : Truthful M s) : ∀ c ∈ s.known_mines, c ∈ M := by
  intro c hc
  unfold Sentence.known_mines at hc
  by_cases hcond : (s.cells.card : ℤ) = s.count
  · rw [if_pos hcond] at hc
    have hcard : (s.cells ∩ M).card = s.cells.card := by
      have := ht.trans hcond.symm
      exact_mod_cast this
    have hsub : s.cells ∩ M = s.cells :=
      Finset.eq_of_subset_of_card_le Finset.inter_subset_left (le_of_eq hcard.symm)
    have : c ∈ s.cells ∩ M := hsub.symm ▸ hc
    exact (Finset.mem_inter.mp this).2
  · rw [if_neg hcond] at hc
    cases hc

/-- A sentence true of `M` whose `known_safes` is nonempty pins down safes:
every cell it returns is not a mine of `M`. -/
theorem known_safes_not_mines {M : Finset Cell} {s : Sentence}
    (ht : Truthful M s) : ∀ c ∈ s.known_safes, c ∉ M := by
  intro c hc hcM
  unfold Sentence.known_safes at hc
  by_cases hcond : s.count = 0
  · rw [if_pos hcond] at hc
    have hcard : (s.cells ∩ M).card = 0 := by
      have := ht.trans hcond
      exact_mod_cast this
    have : c ∈ s.cells ∩ M := Finset.mem_inter.mpr ⟨hc, hcM⟩
    rw [Finset.card_eq_zero.mp hcard] at this
    cases this
  · rw [if_neg hcond] at hc
    cases hc

/-- Membership in the folded union of per-sentence cell sets. -/
theorem mem_foldl_union (g : Sentence → Finset Cell) :
    ∀ (kn : List Sentence) (acc : Finset Cell) (c : Cell),
      c ∈ kn.foldl (fun a s => a ∪ g s) acc ↔ c ∈ acc ∨ ∃ s ∈ kn, c ∈ g s := by
  intro kn
  induction kn with
  | nil => intro acc c; simp
  | cons a t ih =>
    intro acc c
    rw [List.foldl_cons, ih]
    simp only [Finset.mem_union, List.mem_cons]
    constructor
    · rintro (( h | h) | ⟨s, hs, hc⟩)
      · exact Or.inl h
      · exact Or.inr ⟨a, Or.inl rfl, h⟩
      · exact Or.inr ⟨s, Or.inr hs, hc⟩
    · rintro (h | ⟨s, (rfl | hs), hc⟩)
      · exact Or.inl (Or.inl h)
      · exact Or.inl (Or.inr hc)
      · exact Or.inr ⟨s, hs, hc⟩

theorem mooreNeighbors_nodup (h w : ℤ) (c : Cell) : (mooreNeighbors h w c).Nodup := by
  apply List.Nodup.filter
  obtain ⟨x, y⟩ := c
  simp only [List.nodup_cons, List.mem_cons, List.not_mem_nil, or_false,
    List.nodup_nil, Prod.mk.injEq, and_true]
  push_neg
  simp only [true_implies, not_false_iff, and_true]
  omega

theorem filter_length_split {M S Mi : Finset Cell}
    (hS : ∀ c ∈ S, c ∉ M) (hMi : ∀ c ∈ Mi, c ∈ M) :
    ∀ l : List Cell,
      (l.filter fun p => decide (p ∈ M)).length =
        (l.filter fun p => decide (p ∉ S ∧ p ∈ Mi)).length +
        (l.filter fun p => decide (p ∉ S ∧ p ∉ Mi ∧ p ∈ M)).length := by
  intro l
  induction l with
  | nil => rfl
  | cons a t ih =>
    by_cases haM : a ∈ M <;> by_cases haS : a ∈ S <;> by_cases haMi : a ∈ Mi <;>
      first
        | exact absurd haM (hS a haS)
        | exact absurd (hMi a haMi) haM
        | (simp [List.filter_cons, haM, haS, haMi] at ih ⊢
           omega)

theorem unclassified_inter_card {M S Mi : Finset Cell} {l : List Cell} (hl : l.Nodup)
    (hS : ∀ c ∈ S, c ∉ M) (hMi : ∀ c ∈ Mi, c ∈ M) :
    (((l.filter fun p => decide (p ∉ S ∧ p ∉ Mi)).toFinset ∩ M).card : ℤ)
      = ((l.filter fun p => decide (p ∈ M)).length : ℤ)
        - ((l.filter fun p => decide (p ∉ S ∧ p ∈ Mi)).length : ℤ) := by
  have h1 : (l.filter fun p => decide (p ∉ S ∧ p ∉ Mi)).toFinset ∩ M
      = (l.filter fun p => decide (p ∉ S ∧ p ∉ Mi ∧ p ∈ M)).toFinset := by
    ext z
    simp only [Finset.mem_inter, List.mem_toFinset, List.mem_filter, decide_eq_true_eq]
    tauto
  have h2 : (l.filter fun p => decide (p ∉ S ∧ p ∉ Mi ∧ p ∈ M)).Nodup := hl.filter _
  rw [h1, List.toFinset_card_of_nodup h2]
  have h3 := filter_length_split hS hMi l
  omega

theorem sound_integrateObservation {M : Finset Cell} {ai2 : MinesweeperAI}
    {cell : Cell} {count : ℤ} (hs : Sound M ai2)
    (hcount : count = nearby_mines ai2.height ai2.width M cell) :
    Sound M (integrateObservation ai2 cell count) := by
  obtain ⟨hk, hsafe, hmine⟩ := hs
  have hinter := unclassified_inter_card
    (mooreNeighbors_nodup ai2.height ai2.width cell) hsafe hmine
  unfold nearby_mines at hcount
  unfold integrateObservation
  dsimp only
  split_ifs with h1 h2
  · refine sound_foldl_mark_mine _ _ ?_ ⟨hk, hsafe, hmine⟩
    intro c hc
    rw [mem_cellsOf] at hc
    have hcard : (((mooreNeighbors ai2.height ai2.width cell).filter
        fun p => decide (p ∉ ai2.safes ∧ p ∉ ai2.mines)).toFinset ∩ M).card =
        ((mooreNeighbors ai2.height ai2.width cell).filter
        fun p => decide (p ∉ ai2.safes ∧ p ∉ ai2.mines)).toFinset.card := by
      omega
    have hsub : ((mooreNeighbors ai2.height ai2.width cell).filter
        fun p => decide (p ∉ ai2.safes ∧ p ∉ ai2.mines)).toFinset ∩ M =
        ((mooreNeighbors ai2.height ai2.width cell).filter
        fun p => decide (p ∉ ai2.safes ∧ p ∉ ai2.mines)).toFinset :=
      Finset.eq_of_subset_of_card_le Finset.inter_subset_left (le_of_eq hcard.symm)
    have hcm : c ∈ ((mooreNeighbors ai2.height ai2.width cell).filter
        fun p => decide (p ∉ ai2.safes ∧ p ∉ ai2.mines)).toFinset ∩ M :=
      hsub.symm ▸ hc
    exact (Finset.mem_inter.mp hcm).2
  · refine sound_foldl_mark_safe _ _ ?_ ⟨hk, hsafe, hmine⟩
    intro c hc hcM
    rw [mem_cellsOf] at hc
    have hcard : (((mooreNeighbors ai2.height ai2.width cell).filter
        fun p => decide (p ∉ ai2.safes ∧ p ∉ ai2.mines)).toFinset ∩ M).card = 0 := by
      omega
    have hcm : c ∈ ((mooreNeighbors ai2.height ai2.width cell).filter
        fun p => decide (p ∉ ai2.safes ∧ p ∉ ai2.mines)).toFinset ∩ M :=
      Finset.mem_inter.mpr ⟨hc, hcM⟩
    rw [Finset.card_eq_zero.mp hcard] at hcm
    exact absurd hcm (Finset.not_mem_empty c)
  · refine ⟨?_, hsafe, hmine⟩
    intro s hsmem
    rcases List.mem_append.mp hsmem with h | h
    · exact hk s h
    · rcases List.mem_singleton.mp h with rfl
      unfold Truthful
      dsimp only
      omega

theorem sound_propagateKnown {M : Finset Cell} {ai3 : MinesweeperAI}
    (hs : Sound M ai3) : Sound M (propagateKnown ai3) := by
  obtain ⟨hk, hsafe, hmine⟩ := hs
  unfold propagateKnown
  dsimp only
  have hdm : ∀ c ∈ cellsOf (ai3.knowledge.foldl (fun acc s => acc ∪ s.known_mines) ∅),
      c ∈ M := by
    intro c hc
    rw [mem_cellsOf, mem_foldl_union] at hc
    rcases hc with hemp | ⟨s, hsk, hcs⟩
    · exact absurd hemp (Finset.not_mem_empty c)
    · exact known_mines_subset_mines (hk s hsk) c hcs
  have hds : ∀ c ∈ cellsOf (ai3.knowledge.foldl (fun acc s => acc ∪ s.known_safes) ∅),
      c ∉ M := by
    intro c hc
    rw [mem_cellsOf, mem_foldl_union] at hc
    rcases hc with hemp | ⟨s, hsk, hcs⟩
    · exact absurd hemp (Finset.not_mem_empty c)
    · exact known_safes_not_mines (hk s hsk) c hcs
  exact sound_foldl_mark_safe _ _ hds (sound_foldl_mark_mine _ _ hdm ⟨hk, hsafe, hmine⟩)

theorem truthful_derived {M : Finset Cell} {A B : Sentence}
    (hA : Truthful M A) (hB : Truthful M B) (hsub : A.cells ⊆ B.cells) :
    Truthful M ⟨B.cells \ A.cells, B.count - A.count⟩ := by
  unfold Truthful at *
  dsimp only
  have h1 : (B.cells \ A.cells) ∩ M = (B.cells ∩ M) \ (A.cells ∩ M) := by
    ext x
    simp only [Finset.mem_inter, Finset.mem_sdiff]
    tauto
  have hsub2 : A.cells ∩ M ⊆ B.cells ∩ M := Finset.inter_subset_inter hsub subset_rfl
  rw [h1, Finset.card_sdiff hsub2, Nat.cast_sub (Finset.card_le_card hsub2), hA, hB]

theorem accSound_resolvePair {M : Finset Cell} {A B : Sentence} {acc : ResolutionAcc}
    (hA : Truthful M A) (hB : Truthful M B) (hacc : AccSound M acc) :
    AccSound M (resolvePair A acc B) := by
  obtain ⟨hn, hsafe, hmine⟩ := hacc
  unfold resolvePair
  dsimp only
  split_ifs with hEq hsub hc0 hcl
  · exact ⟨hn, hsafe, hmine⟩
  · refine ⟨hn, ?_, hmine⟩
    intro c hc
    rcases List.mem_append.mp hc with h | h
    · exact hsafe c h
    · rw [mem_cellsOf] at h
      have hd := truthful_derived hA hB hsub
      unfold Truthful at hd
      dsimp only at hd
      have hcard : ((B.cells \ A.cells) ∩ M).card = 0 := by omega
      intro hcM
      have hcm : c ∈ (B.cells \ A.cells) ∩ M := Finset.mem_inter.mpr ⟨h, hcM⟩
      rw [Finset.card_eq_zero.mp hcard] at hcm
      exact absurd hcm (Finset.not_mem_empty c)
  · refine ⟨hn, hsafe, ?_⟩
    intro c hc
    rcases List.mem_append.mp hc with h | h
    · exact hmine c h
    · rw [mem_cellsOf] at h
      have hd := truthful_derived hA hB hsub
      unfold Truthful at hd
      dsimp only at hd
      have hcard : ((B.cells \ A.cells) ∩ M).card = (B.cells \ A.cells).card := by omega
      have heq : (B.cells \ A.cells) ∩ M = B.cells \ A.cells :=
        Finset.eq_of_subset_of_card_le Finset.inter_subset_left (le_of_eq hcard.symm)
      have hcm : c ∈ (B.cells \ A.cells) ∩ M := heq.symm ▸ h
      exact (Finset.mem_inter.mp hcm).2
  · refine ⟨?_, hsafe, hmine⟩
    intro s hsmem
    rcases List.mem_append.mp hsmem with hmem | hmem
    · exact hn s hmem
    · rcases List.mem_singleton.mp hmem with rfl
      exact truthful_derived hA hB hsub
  · exact ⟨hn, hsafe, hmine⟩

theorem accSound_inner {M : Finset Cell} {A : Sentence} (hA : Truthful M A) :
    ∀ (l : List Sentence) (acc : ResolutionAcc), (∀ s ∈ l, Truthful M s) →
      AccSound M acc → AccSound M (l.foldl (resolvePair A) acc) := by
  intro l
  induction l with
  | nil => intro acc _ hacc; exact hacc
  | cons b t ih =>
    intro acc hl hacc
    exact ih _ (fun s hsm => hl s (List.mem_cons_of_mem b hsm))
      (accSound_resolvePair hA (hl b (List.mem_cons_self b t)) hacc)

theorem accSound_outer {M : Finset Cell} {kn : List Sentence}
    (hkn : ∀ s ∈ kn, Truthful M s) :
    ∀ (l : List Sentence) (acc : ResolutionAcc), (∀ s ∈ l, Truthful M s) →
      AccSound M acc →
      AccSound M (l.foldl (fun acc A => kn.foldl (resolvePair A) acc) acc) := by
  intro l
  induction l with
  | nil => intro acc _ hacc; exact hacc
  | cons b t ih =>
    intro acc hl hacc
    exact ih _ (fun s hsm => hl s (List.mem_cons_of_mem b hsm))
      (accSound_inner (hl b (List.mem_cons_self b t)) kn acc hkn hacc)

theorem accSound_resolutionScan {M : Finset Cell} {kn : List Sentence}
    (hkn : ∀ s ∈ kn, Truthful M s) : AccSound M (resolutionScan kn) := by
  refine accSound_outer hkn kn ⟨[], [], []⟩ hkn ⟨?_, ?_, ?_⟩
  · intro s hsm; exact absurd hsm (List.not_mem_nil s)
  · intro c hc; exact absurd hc (List.not_mem_nil c)
  · intro c hc; exact absurd hc (List.not_mem_nil c)

theorem sound_resolveInference {M : Finset Cell} {ai5 : MinesweeperAI}
    (hs : Sound M ai5) : Sound M (resolveInference ai5) := by
  obtain ⟨hk, hsafe, hmine⟩ := hs
  obtain ⟨hns, hsc, hmc⟩ := accSound_resolutionScan hk
  unfold resolveInference
  dsimp only
  refine sound_foldl_mark_safe _ _ hsc (sound_foldl_mark_mine _ _ hmc ?_)
  refine ⟨?_, hsafe, hmine⟩
  intro s hsmem
  rcases List.mem_append.mp hsmem with h | h
  · exact hk s h
  · exact hns s h

theorem sound_add_knowledge {M : Finset Cell} {ai : MinesweeperAI}
    {cell : Cell} {count : ℤ} (hs : Sound M ai) (hcell : cell ∉ M)
    (hcount : count = nearby_mines ai.height ai.width M cell) :
    Sound M (ai.add_knowledge cell count) := by
  unfold MinesweeperAI.add_knowledge
  have hs1 : Sound M { ai with moves_made := insert cell ai.moves_made } := hs
  have hs2 := sound_mark_safe hcell hs1
  have hcount2 : count = nearby_mines
      (MinesweeperAI.mark_safe { ai with moves_made := insert cell ai.moves_made }
        cell).height
      (MinesweeperAI.mark_safe { ai with moves_made := insert cell ai.moves_made }
        cell).width M cell := hcount
  exact sound_resolveInference (sound_propagateKnown
    (sound_integrateObservation hs2 hcount2))

theorem sound_initAI (M : Finset Cell) (h w : ℤ) : Sound M (initAI h w) := by
  refine ⟨?_, ?_, ?_⟩
  · intro s hsm; exact absurd hsm (List.not_mem_nil s)
  · intro c hc; exact absurd hc (Finset.not_mem_empty c)
  · intro c hc; exact absurd hc (Finset.not_mem_empty c)

theorem sound_runObs {M : Finset Cell} {h w : ℤ} :
    ∀ (os : List (Cell × ℤ)) (ai : MinesweeperAI),
      ai.height = h → ai.width = w → Sound M ai → TruthfulObs M h w os →
      Sound M (runObs ai os) := by
  intro os
  induction os with
  | nil => intro ai _ _ hs _; exact hs
  | cons o t ih =>
    intro ai hh hww hs htr
    have ho := htr o (List.mem_cons_self o t)
    have hcnt : o.2 = nearby_mines ai.height ai.width M o.1 := by
      rw [hh, hww]
      exact ho.2
    have hstep := sound_add_knowledge hs ho.1 hcnt
    show Sound M (runObs (ai.add_knowledge o.1 o.2) t)
    exact ih _ ((add_knowledge_height ai o.1 o.2).trans hh)
      ((add_knowledge_width ai o.1 o.2).trans hww) hstep
      (fun o2 ho2 => htr o2 (List.mem_cons_of_mem o ho2))

/-- Any state reached from a fresh knowledge base by contract-honouring
observations is sound for the mine placement. -/
theorem sound_reachable {M : Finset Cell} {h w : ℤ} {os : List (Cell × ℤ)}
    (htr : TruthfulObs M h w os) : Sound M (runObs (initAI h w) os) :=
  sound_runObs os (initAI h w) rfl rfl (sound_initAI M h w) htr

theorem mooreNeighbors_ne {h w : ℤ} {c p : Cell} (hp : p ∈ mooreNeighbors h w c) :
    p ≠ c := by
  unfold mooreNeighbors at hp
  rw [List.mem_filter] at hp
  have h2 := hp.2
  simp only [Bool.and_eq_true, decide_eq_true_eq] at h2
  exact h2.1

theorem runObs_height : ∀ (os : List (Cell × ℤ)) (ai : MinesweeperAI),
    (runObs ai os).height = ai.height := by
  intro os
  induction os with
  | nil => intro ai; rfl
  | cons o t ih =>
    intro ai
    show (runObs (ai.add_knowledge o.1 o.2) t).height = ai.height
    rw [ih, add_knowledge_height]

theorem runObs_width : ∀ (os : List (Cell × ℤ)) (ai : MinesweeperAI),
    (runObs ai os).width = ai.width := by
  intro os
  induction os with
  | nil => intro ai; rfl
  | cons o t ih =>
    intro ai
    show (runObs (ai.add_knowledge o.1 o.2) t).width = ai.width
    rw [ih, add_knowledge_width]

/-- If no neighbor decrements the count, observing `0` takes the
mark-every-remaining-neighbor-safe branch of step 3. -/
theorem integrateObservation_zero_marks_safe {b : MinesweeperAI} {cell p : Cell}
    (hdec : ((mooreNeighbors b.height b.width cell).filter
        fun q => decide (q ∉ b.safes ∧ q ∈ b.mines)) = [])
    (hp : p ∈ ((mooreNeighbors b.height b.width cell).filter
        fun q => decide (q ∉ b.safes ∧ q ∉ b.mines)).toFinset) :
    p ∈ (integrateObservation b cell 0).safes := by
  have hpos : 0 < ((mooreNeighbors b.height b.width cell).filter
      fun q => decide (q ∉ b.safes ∧ q ∉ b.mines)).toFinset.card :=
    Finset.card_pos.mpr ⟨p, hp⟩
  unfold integrateObservation
  dsimp only
  rw [hdec]
  split_ifs with h1 h2
  · exfalso
    simp only [List.length_nil, Nat.cast_zero, sub_zero] at h1
    omega
  · exact foldl_mark_safe_mem _ _ _ (mem_cellsOf.mpr hp)
  · exfalso
    refine h2 ⟨by simp, hpos⟩

/-- If the remaining count equals the number of remaining neighbors, step 3
takes the mark-every-remaining-neighbor-mine branch. -/
theorem integrateObservation_full_marks_mine {b : MinesweeperAI} {cell p : Cell}
    {count : ℤ}
    (hcond : ((((mooreNeighbors b.height b.width cell).filter
        fun q => decide (q ∉ b.safes ∧ q ∉ b.mines)).toFinset.card : ℤ)
      = count - (((mooreNeighbors b.height b.width cell).filter
        fun q => decide (q ∉ b.safes ∧ q ∈ b.mines)).length : ℤ)))
    (hp : p ∈ ((mooreNeighbors b.height b.width cell).filter
        fun q => decide (q ∉ b.safes ∧ q ∉ b.mines)).toFinset) :
    p ∈ (integrateObservation b cell count).mines := by
  unfold integrateObservation
  dsimp only
  rw [if_pos hcond]
  exact foldl_mark_mine_mem _ _ _ (mem_cellsOf.mpr hp)

/-! ### Bounds on knowledge growth -/

theorem mark_mine_knowledge_le (ai : MinesweeperAI) (c : Cell) :
    (ai.mark_mine c).knowledge.length ≤ ai.knowledge.length :=
  markLoop_length_le _ _

theorem mark_safe_knowledge_le (ai : MinesweeperAI) (c : Cell) :
    (ai.mark_safe c).knowledge.length ≤ ai.knowledge.length :=
  markLoop_length_le _ _

theorem foldl_mark_mine_knowledge_le :
    ∀ (cs : List Cell) (ai : MinesweeperAI),
      (cs.foldl MinesweeperAI.mark_mine ai).knowledge.length ≤ ai.knowledge.length := by
  intro cs
  induction cs with
  | nil => intro ai; exact le_refl _
  | cons a t ih => intro ai; exact le_trans (ih _) (mark_mine_knowledge_le ai a)

theorem foldl_mark_safe_knowledge_le :
    ∀ (cs : List Cell) (ai : MinesweeperAI),
      (cs.foldl MinesweeperAI.mark_safe ai).knowledge.length ≤ ai.knowledge.length := by
  intro cs
  induction cs with
  | nil => intro ai; exact le_refl _
  | cons a t ih => intro ai; exact le_trans (ih _) (mark_safe_knowledge_le ai a)

theorem integrateObservation_knowledge_le (ai2 : MinesweeperAI) (cell : Cell) (count : ℤ) :
    (integrateObservation ai2 cell count).knowledge.length ≤ ai2.knowledge.length + 1 := by
  unfold integrateObservation
  dsimp only
  split_ifs
  · exact le_trans (foldl_mark_mine_knowledge_le _ _) (Nat.le_succ _)
  · exact le_trans (foldl_mark_safe_knowledge_le _ _) (Nat.le_succ _)
  · simp

theorem propagateKnown_knowledge_le (ai3 : MinesweeperAI) :
    (propagateKnown ai3).knowledge.length ≤ ai3.knowledge.length := by
  unfold propagateKnown
  dsimp only
  exact le_trans (foldl_mark_safe_knowledge_le _ _) (foldl_mark_mine_knowledge_le _ _)

theorem resolvePair_newSentences_le (A : Sentence) (acc : ResolutionAcc) (B : Sentence) :
    (resolvePair A acc B).newSentences.length ≤ acc.newSentences.length + 1 := by
  unfold resolvePair
  dsimp only
  split_ifs <;> simp

theorem foldl_resolvePair_newSentences_le (A : Sentence) :
    ∀ (l : List Sentence) (acc : ResolutionAcc),
      (l.foldl (resolvePair A) acc).newSentences.length ≤
        acc.newSentences.length + l.length := by
  intro l
  induction l with
  | nil => intro acc; exact le_refl _
  | cons b t ih =>
    intro acc
    refine le_trans (ih _) ?_
    have := resolvePair_newSentences_le A acc b
    simp only [List.length_cons]
    omega

theorem foldl_scan_newSentences_le (kn : List Sentence) :
    ∀ (l : List Sentence) (acc : ResolutionAcc),
      (l.foldl (fun acc A => kn.foldl (resolvePair A) acc) acc).newSentences.length ≤
        acc.newSentences.length + l.length * kn.length := by
  intro l
  induction l with
  | nil => intro acc; simp
  | cons b t ih =>
    intro acc
    refine le_trans (ih _) ?_
    have := foldl_resolvePair_newSentences_le b kn acc
    simp only [List.length_cons]
    have harith : (t.length + 1) * kn.length = kn.length + t.length * kn.length := by ring
    omega

theorem resolutionScan_newSentences_le (kn : List Sentence) :
    (resolutionScan kn).newSentences.length ≤ kn.length * kn.length := by
  have := foldl_scan_newSentences_le kn kn ⟨[], [], []⟩
  simpa using this

theorem resolveInference_knowledge_le (ai5 : MinesweeperAI) :
    (resolveInference ai5).knowledge.length ≤
      ai5.knowledge.length + ai5.knowledge.length * ai5.knowledge.length := by
  unfold resolveInference
  dsimp only
  refine le_trans (foldl_mark_safe_knowledge_le _ _) ?_
  refine le_trans (foldl_mark_mine_knowledge_le _ _) ?_
  have h1 : (ai5.knowledge ++ (resolutionScan ai5.knowledge).newSentences).length =
      ai5.knowledge.length + (resolutionScan ai5.knowledge).newSentences.length := by
    simp
  have h2 := resolutionScan_newSentences_le ai5.knowledge
  show (ai5.knowledge ++ (resolutionScan ai5.knowledge).newSentences).length ≤ _
  omega

/-! ### The subset-resolution scan appends derived sentences unconditionally -/

theorem resolvePair_newSentences_mono {A : Sentence} {acc : ResolutionAcc}
    {B s : Sentence} (hmem : s ∈ acc.newSentences) :
    s ∈ (resolvePair A acc B).newSentences := by
  unfold resolvePair
  dsimp only
  split_ifs <;> first | exact hmem | exact List.mem_append_left _ hmem

theorem foldl_resolvePair_newSentences_mono {A s : Sentence} :
    ∀ (l : List Sentence) (acc : ResolutionAcc), s ∈ acc.newSentences →
      s ∈ (l.foldl (resolvePair A) acc).newSentences := by
  intro l
  induction l with
  | nil => intro acc hmem; exact hmem
  | cons b t ih => intro acc hmem; exact ih _ (resolvePair_newSentences_mono hmem)

theorem foldl_resolvePair_mem {A B : Sentence} (hAB : A ≠ B)
    (hsub : A.cells ⊆ B.cells) (hc0 : B.count - A.count ≠ 0)
    (hcl : B.count - A.count ≠ ((B.cells \ A.cells).card : ℤ)) :
    ∀ (l : List Sentence) (acc : ResolutionAcc), B ∈ l →
      Sentence.mk (B.cells \ A.cells) (B.count - A.count) ∈
        (l.foldl (resolvePair A) acc).newSentences := by
  intro l
  induction l with
  | nil => intro acc hB; cases hB
  | cons b t ih =>
    intro acc hB
    rcases List.mem_cons.mp hB with rfl | hB2
    · refine foldl_resolvePair_newSentences_mono t _ ?_
      unfold resolvePair
      dsimp only
      rw [if_neg hAB, if_pos hsub, if_neg hc0, if_neg hcl]
      exact List.mem_append_right _ (List.mem_singleton.mpr rfl)
    · exact ih _ hB2

theorem foldl_scan_newSentences_mono {kn : List Sentence} {s : Sentence} :
    ∀ (l : List Sentence) (acc : ResolutionAcc), s ∈ acc.newSentences →
      s ∈ (l.foldl (fun acc A2 => kn.foldl (resolvePair A2) acc) acc).newSentences := by
  intro l
  induction l with
  | nil => intro acc hmem; exact hmem
  | cons a t ih =>
    intro acc hmem
    exact ih _ (foldl_resolvePair_newSentences_mono kn _ hmem)

theorem foldl_scan_mem {kn : List Sentence} {A B : Sentence} (hAB : A ≠ B)
    (hsub : A.cells ⊆ B.cells) (hc0 : B.count - A.count ≠ 0)
    (hcl : B.count - A.count ≠ ((B.cells \ A.cells).card : ℤ)) (hB : B ∈ kn) :
    ∀ (l : List Sentence) (acc : ResolutionAcc), A ∈ l →
      Sentence.mk (B.cells \ A.cells) (B.count - A.count) ∈
        (l.foldl (fun acc A2 => kn.foldl (resolvePair A2) acc) acc).newSentences := by
  intro l
  induction l with
  | nil => intro acc hA; cases hA
  | cons a t ih =>
    intro acc hA
    rcases List.mem_cons.mp hA with rfl | hA2
    · exact foldl_scan_newSentences_mono t _
        (foldl_resolvePair_mem hAB hsub hc0 hcl kn acc hB)
    · exact ih _ hA2

/-! ### Zero-count and full-count propagation at the `add_knowledge` level -/

theorem markSafe_cell_filter_unclassified (ai : MinesweeperAI) (cell : Cell) :
    ((mooreNeighbors
        (MinesweeperAI.mark_safe { ai with moves_made := insert cell ai.moves_made } cell).height
        (MinesweeperAI.mark_safe { ai with moves_made := insert cell ai.moves_made } cell).width
        cell).filter
      fun q => decide
        (q ∉ (MinesweeperAI.mark_safe { ai with moves_made := insert cell ai.moves_made } cell).safes ∧
         q ∉ (MinesweeperAI.mark_safe { ai with moves_made := insert cell ai.moves_made } cell).mines))
    = (mooreNeighbors ai.height ai.width cell).filter
        fun q => decide (q ∉ ai.safes ∧ q ∉ ai.mines) := by
  show (mooreNeighbors ai.height ai.width cell).filter
      (fun q => decide (q ∉ insert cell ai.safes ∧ q ∉ ai.mines)) = _
  apply List.filter_congr
  intro q hq
  have hqne := mooreNeighbors_ne hq
  rw [decide_eq_decide]
  simp [Finset.mem_insert, hqne]

theorem markSafe_cell_filter_mine (ai : MinesweeperAI) (cell : Cell) :
    ((mooreNeighbors
        (MinesweeperAI.mark_safe { ai with moves_made := insert cell ai.moves_made } cell).height
        (MinesweeperAI.mark_safe { ai with moves_made := insert cell ai.moves_made } cell).width
        cell).filter
      fun q => decide
        (q ∉ (MinesweeperAI.mark_safe { ai with moves_made := insert cell ai.moves_made } cell).safes ∧
         q ∈ (MinesweeperAI.mark_safe { ai with moves_made := insert cell ai.moves_made } cell).mines))
    = (mooreNeighbors ai.height ai.width cell).filter
        fun q => decide (q ∉ ai.safes ∧ q ∈ ai.mines) := by
  show (mooreNeighbors ai.height ai.width cell).filter
      (fun q => decide (q ∉ insert cell ai.safes ∧ q ∈ ai.mines)) = _
  apply List.filter_congr
  intro q hq
  have hqne := mooreNeighbors_ne hq
  rw [decide_eq_decide]
  simp [Finset.mem_insert, hqne]

theorem add_knowledge_zero_marks_safe {ai : MinesweeperAI} {cell p : Cell}
    (hnomine : ∀ q ∈ mooreNeighbors ai.height ai.width cell, q ∉ ai.mines)
    (hpn : p ∈ mooreNeighbors ai.height ai.width cell)
    (hps : p ∉ ai.safes) (hpm : p ∉ ai.mines) :
    p ∈ (ai.add_knowledge cell 0).safes := by
  have hpne : p ≠ cell := mooreNeighbors_ne hpn
  unfold MinesweeperAI.add_knowledge
  refine Finset.mem_of_subset (resolveInference_safes_subset _) ?_
  refine Finset.mem_of_subset (propagateKnown_safes_subset _) ?_
  refine integrateObservation_zero_marks_safe ?_ ?_
  · rw [markSafe_cell_filter_mine]
    refine List.filter_eq_nil_iff.mpr ?_
    intro q hq hpq
    rw [decide_eq_true_eq] at hpq
    exact hnomine q hq hpq.2
  · rw [markSafe_cell_filter_unclassified, List.mem_toFinset, List.mem_filter]
    refine ⟨hpn, ?_⟩
    rw [decide_eq_true_eq]
    exact ⟨hps, hpm⟩

theorem add_knowledge_full_marks_mine {ai : MinesweeperAI} {cell p : Cell} {count : ℤ}
    (hcard : ((unclassifiedNeighbors ai cell).card : ℤ)
      = count - knownMineNeighborCount ai cell)
    (hp : p ∈ unclassifiedNeighbors ai cell) :
    p ∈ (ai.add_knowledge cell count).mines := by
  unfold unclassifiedNeighbors knownMineNeighborCount at hcard
  unfold unclassifiedNeighbors at hp
  unfold MinesweeperAI.add_knowledge
  refine Finset.mem_of_subset (resolveInference_mines_subset _) ?_
  refine Finset.mem_of_subset (propagateKnown_mines_subset _) ?_
  refine integrateObservation_full_marks_mine ?_ ?_
  · rw [markSafe_cell_filter_unclassified, markSafe_cell_filter_mine]
    exact hcard
  · rw [markSafe_cell_filter_unclassified]
    exact hp

/-! ### Claim theorems -/

/-- C1: the claim says that after every `add_knowledge` call the knowledge
base is saturated (the true fixed point of direct propagation and pairwise
subset-resolution).  The code runs each pass exactly once, so this fails: on
a 1×5 board, after the contract-truthful game (mines at `(0,2)`)
`observe((0,1),1); observe((0,3),1); observe((0,4),0)`, the final state still
stores the sentence `{(0,0)} = 0` while `(0,0)` has not been marked safe —
one more direct-propagation pass would mark it. -/
theorem c1_not_saturated :
    TruthfulObs {((0:ℤ),(2:ℤ))} 1 5
      [(((0:ℤ),(1:ℤ)), 1), (((0:ℤ),(3:ℤ)), 1), (((0:ℤ),(4:ℤ)), 0)] ∧
    Sentence.mk ({((0:ℤ),(0:ℤ))} : Finset Cell) 0 ∈
      (runObs (initAI 1 5)
        [(((0:ℤ),(1:ℤ)), 1), (((0:ℤ),(3:ℤ)), 1), (((0:ℤ),(4:ℤ)), 0)]).knowledge ∧
    ((0:ℤ),(0:ℤ)) ∉
      (runObs (initAI 1 5)
        [(((0:ℤ),(1:ℤ)), 1), (((0:ℤ),(3:ℤ)), 1), (((0:ℤ),(4:ℤ)), 0)]).safes ∧
    ¬ Saturated (runObs (initAI 1 5)
      [(((0:ℤ),(1:ℤ)), 1), (((0:ℤ),(3:ℤ)), 1), (((0:ℤ),(4:ℤ)), 0)]) := by
  refine ⟨by decide, by decide, by decide, by decide⟩

/-- C2: the claim says `add_knowledge` is idempotent and that a cell already
in `moves_made` is rejected.  The code never consults `moves_made`: repeating
the (truthful, mine at `(1,1)`) observation `((0,0),1)` on a fresh 2×2 board
appends a second copy of the same sentence, so the state after two calls
differs from the state after one. -/
theorem c2_not_idempotent :
    TruthfulObs {((1:ℤ),(1:ℤ))} 2 2 [(((0:ℤ),(0:ℤ)), 1)] ∧
    (((initAI 2 2).add_knowledge ((0:ℤ),(0:ℤ)) 1).add_knowledge ((0:ℤ),(0:ℤ)) 1
      ≠ (initAI 2 2).add_knowledge ((0:ℤ),(0:ℤ)) 1) ∧
    (((initAI 2 2).add_knowledge ((0:ℤ),(0:ℤ)) 1).add_knowledge
      ((0:ℤ),(0:ℤ)) 1).knowledge.length = 2 ∧
    ((initAI 2 2).add_knowledge ((0:ℤ),(0:ℤ)) 1).knowledge.length = 1 := by
  refine ⟨by decide, by decide, by decide, by decide⟩

/-- C3: the claim says no stored sentence ever contains a cell of
`safes`/`mines`, because `mark_mine`/`mark_safe` purge every sentence.  The
purge loop removes elements of the list being iterated, skipping the sentence
after a removed one: on a 2×4 board with mine `(0,2)`, after the
contract-truthful game `observe((0,0),0); observe((1,1),1); observe((1,2),1)`
the final knowledge base stores `{(0,2),(0,3),(1,3)} = 1` even though
`(0,2)` is in `mines`. -/
theorem c3_purge_violated :
    TruthfulObs {((0:ℤ),(2:ℤ))} 2 4
      [(((0:ℤ),(0:ℤ)), 0), (((1:ℤ),(1:ℤ)), 1), (((1:ℤ),(2:ℤ)), 1)] ∧
    ((0:ℤ),(2:ℤ)) ∈ (runObs (initAI 2 4)
      [(((0:ℤ),(0:ℤ)), 0), (((1:ℤ),(1:ℤ)), 1), (((1:ℤ),(2:ℤ)), 1)]).mines ∧
    Sentence.mk ({((0:ℤ),(2:ℤ)), ((0:ℤ),(3:ℤ)), ((1:ℤ),(3:ℤ))} : Finset Cell) 1 ∈
      (runObs (initAI 2 4)
        [(((0:ℤ),(0:ℤ)), 0), (((1:ℤ),(1:ℤ)), 1), (((1:ℤ),(2:ℤ)), 1)]).knowledge ∧
    ((0:ℤ),(2:ℤ)) ∈
      (Sentence.mk ({((0:ℤ),(2:ℤ)), ((0:ℤ),(3:ℤ)), ((1:ℤ),(3:ℤ))} : Finset Cell) 1).cells := by
  refine ⟨by decide, by decide, by decide, by decide⟩

/-- C4 (counterexample): with truthful counts alone (the claim's hypothesis),
`safes` and `mines` need not stay disjoint.  On a 1×4 board all three counts
below are the true `nearby_mines` counts for mines `{(0,1),(0,2)}`, yet after
the third call `(0,0)` is in both `safes` and `mines` (the second observation
lets the AI conclude `(0,0)` is a mine; the third observation then marks the
observed cell `(0,0)` safe unconditionally). -/
theorem c4_counterexample :
    TruthfulCounts {((0:ℤ),(1:ℤ)), ((0:ℤ),(2:ℤ))} 1 4
      [(((0:ℤ),(1:ℤ)), 1), (((0:ℤ),(2:ℤ)), 1), (((0:ℤ),(0:ℤ)), 1)] ∧
    ((0:ℤ),(0:ℤ)) ∈ (runObs (initAI 1 4)
      [(((0:ℤ),(1:ℤ)), 1), (((0:ℤ),(2:ℤ)), 1), (((0:ℤ),(0:ℤ)), 1)]).safes ∧
    ((0:ℤ),(0:ℤ)) ∈ (runObs (initAI 1 4)
      [(((0:ℤ),(1:ℤ)), 1), (((0:ℤ),(2:ℤ)), 1), (((0:ℤ),(0:ℤ)), 1)]).mines := by
  refine ⟨by decide, by decide, by decide⟩

/-- C4 (amended): `safes` and `mines` stay disjoint in every state reachable
by observations honouring the documented caller contract of `add_knowledge`
("for a given safe cell"): every observed cell is a non-mine and every count
is the true `nearby_mines` count of the placement. -/
theorem c4_disjoint_of_contract (M : Finset Cell) (h w : ℤ) (os : List (Cell × ℤ))
    (htr : TruthfulObs M h w os) :
    ∀ c ∈ (runObs (initAI h w) os).safes, c ∉ (runObs (initAI h w) os).mines := by
  intro c hcs hcm
  obtain ⟨_, hsafe, hmine⟩ := sound_reachable htr
  exact hsafe c hcs (hmine c hcm)

/-- Witness for C4 (amended) at a concrete truthful game. -/
theorem c4_disjoint_witness :
    ((0:ℤ),(0:ℤ)) ∉ (runObs (initAI 2 2) [(((0:ℤ),(0:ℤ)), 1)]).mines :=
  c4_disjoint_of_contract {((1:ℤ),(1:ℤ))} 2 2 [(((0:ℤ),(0:ℤ)), 1)] (by decide)
    ((0:ℤ),(0:ℤ)) (by decide)

/-- C5: zero-count propagation.  In any state reached by contract-honouring
observations, observing a true count of `0` for an in-bounds cell puts every
not-yet-classified in-bounds neighbor of that cell into `safes`. -/
theorem c5_zero_count_propagation (M : Finset Cell) (h w : ℤ) (os : List (Cell × ℤ))
    (cell : Cell) (htr : TruthfulObs M h w os) (_hb : inBounds h w cell)
    (h0 : nearby_mines h w M cell = 0) :
    ∀ p ∈ mooreNeighbors h w cell,
      p ∉ (runObs (initAI h w) os).safes →
      p ∉ (runObs (initAI h w) os).mines →
      p ∈ ((runObs (initAI h w) os).add_knowledge cell 0).safes := by
  intro p hpn hps hpm
  obtain ⟨hk, hsafe, hmine⟩ := sound_reachable htr
  have hh : (runObs (initAI h w) os).height = h := runObs_height os (initAI h w)
  have hw2 : (runObs (initAI h w) os).width = w := runObs_width os (initAI h w)
  apply add_knowledge_zero_marks_safe
  · intro q hq hqm
    rw [hh, hw2] at hq
    have hqM : q ∈ M := hmine q hqm
    unfold nearby_mines at h0
    have hlen : ((mooreNeighbors h w cell).filter fun r => decide (r ∈ M)).length = 0 := by
      exact_mod_cast h0
    have hnil := List.length_eq_zero.mp hlen
    have hqmem : q ∈ (mooreNeighbors h w cell).filter fun r => decide (r ∈ M) :=
      List.mem_filter.mpr ⟨hq, by simpa using hqM⟩
    rw [hnil] at hqmem
    exact absurd hqmem (List.not_mem_nil q)
  · rwa [hh, hw2]
  · exact hps
  · exact hpm

set_option maxHeartbeats 2000000 in
/-- C6 (counterexample): the claim as stated — if `cell` has exactly `k`
unclassified neighbors then `observe(cell, k)` puts all of them into `mines`
— fails as soon as a neighbor is already a known mine (the code first
decrements the local count).  Reachable, fully contract-truthful instance on
a 2×4 board with mine `(0,2)`: before the fourth call, `(1,3)` has exactly
one unclassified neighbor (`(0,3)`), and `1` is the true count of `(1,3)`,
yet `observe((1,3),1)` marks `(0,3)` safe, not mine. -/
theorem c6_counterexample :
    TruthfulObs {((0:ℤ),(2:ℤ))} 2 4
      [(((0:ℤ),(0:ℤ)), 0), (((1:ℤ),(1:ℤ)), 1), (((1:ℤ),(2:ℤ)), 1)] ∧
    inBounds 2 4 ((1:ℤ),(3:ℤ)) ∧
    (1 : ℤ) = nearby_mines 2 4 {((0:ℤ),(2:ℤ))} ((1:ℤ),(3:ℤ)) ∧
    (unclassifiedNeighbors (runObs (initAI 2 4)
      [(((0:ℤ),(0:ℤ)), 0), (((1:ℤ),(1:ℤ)), 1), (((1:ℤ),(2:ℤ)), 1)]) ((1:ℤ),(3:ℤ))).card = 1 ∧
    ((0:ℤ),(3:ℤ)) ∈ unclassifiedNeighbors (runObs (initAI 2 4)
      [(((0:ℤ),(0:ℤ)), 0), (((1:ℤ),(1:ℤ)), 1), (((1:ℤ),(2:ℤ)), 1)]) ((1:ℤ),(3:ℤ)) ∧
    ((0:ℤ),(3:ℤ)) ∉ ((runObs (initAI 2 4)
      [(((0:ℤ),(0:ℤ)), 0), (((1:ℤ),(1:ℤ)), 1), (((1:ℤ),(2:ℤ)), 1)]).add_knowledge
        ((1:ℤ),(3:ℤ)) 1).mines := by
  refine ⟨by decide, by decide, by decide, by decide, by decide, by decide⟩

/-- C6 (amended): full-count propagation with the decrement taken into
account.  If the observed count minus the number of neighbors already known
to be mines equals the number of unclassified neighbors, then after
`observe(cell, count)` every unclassified neighbor is in `mines`. -/
theorem c6_full_count_amended (ai : MinesweeperAI) (cell : Cell) (count : ℤ)
    (hcard : ((unclassifiedNeighbors ai cell).card : ℤ)
      = count - knownMineNeighborCount ai cell) :
    ∀ p ∈ unclassifiedNeighbors ai cell, p ∈ (ai.add_knowledge cell count).mines :=
  fun _ hp => add_knowledge_full_marks_mine hcard hp

set_option maxHeartbeats 2000000 in
/-- C7 (counterexample): the claim says a derived candidate is appended only
if no equal sentence is already stored, keeping the collection free of
duplicates.  The code performs no such check: after the contract-truthful
game below (2×5 board, mines `{(0,1),(0,2)}`), the knowledge base holds two
copies of the sentence `{(0,0),(0,1)} = 1`. -/
theorem c7_duplicates :
    TruthfulObs {((0:ℤ),(1:ℤ)), ((0:ℤ),(2:ℤ))} 2 5
      [(((1:ℤ),(1:ℤ)), 2), (((1:ℤ),(0:ℤ)), 1), (((1:ℤ),(4:ℤ)), 0)] ∧
    (runObs (initAI 2 5)
      [(((1:ℤ),(1:ℤ)), 2), (((1:ℤ),(0:ℤ)), 1), (((1:ℤ),(4:ℤ)), 0)]).knowledge.count
      (Sentence.mk ({((0:ℤ),(0:ℤ)), ((0:ℤ),(1:ℤ))} : Finset Cell) 1) = 2 := by
  refine ⟨by decide, by decide⟩

/-- C7 (amended): the subset-resolution scan queues every derived candidate
that is neither all-safe nor all-mine as new knowledge unconditionally — no
equality check against the existing collection is made, so `(cells, count)`
duplicates can accumulate. -/
theorem c7_append_unconditional (kn : List Sentence) (A B : Sentence)
    (hA : A ∈ kn) (hB : B ∈ kn) (hAB : A ≠ B) (hsub : A.cells ⊆ B.cells)
    (hc0 : B.count - A.count ≠ 0)
    (hcl : B.count - A.count ≠ ((B.cells \ A.cells).card : ℤ)) :
    Sentence.mk (B.cells \ A.cells) (B.count - A.count) ∈
      (resolutionScan kn).newSentences :=
  foldl_scan_mem hAB hsub hc0 hcl hB kn ⟨[], [], []⟩ hA

/-- Witness for C7 (amended): the derived sentence `{(0,1),(0,2)} = 1` is
queued even though an equal sentence is already in the base. -/
theorem c7_append_witness :
    Sentence.mk ({((0:ℤ),(1:ℤ)), ((0:ℤ),(2:ℤ))} : Finset Cell) 1 ∈
      (resolutionScan
        [Sentence.mk ({((0:ℤ),(0:ℤ))} : Finset Cell) 1,
         Sentence.mk ({((0:ℤ),(0:ℤ)), ((0:ℤ),(1:ℤ)), ((0:ℤ),(2:ℤ))} : Finset Cell) 2,
         Sentence.mk ({((0:ℤ),(1:ℤ)), ((0:ℤ),(2:ℤ))} : Finset Cell) 1]).newSentences := by
  have h := c7_append_unconditional
    [Sentence.mk ({((0:ℤ),(0:ℤ))} : Finset Cell) 1,
     Sentence.mk ({((0:ℤ),(0:ℤ)), ((0:ℤ),(1:ℤ)), ((0:ℤ),(2:ℤ))} : Finset Cell) 2,
     Sentence.mk ({((0:ℤ),(1:ℤ)), ((0:ℤ),(2:ℤ))} : Finset Cell) 1]
    (Sentence.mk ({((0:ℤ),(0:ℤ))} : Finset Cell) 1)
    (Sentence.mk ({((0:ℤ),(0:ℤ)), ((0:ℤ),(1:ℤ)), ((0:ℤ),(2:ℤ))} : Finset Cell) 2)
    (by decide) (by decide) (by decide) (by decide) (by decide) (by decide)
  have he : Sentence.mk
      (({((0:ℤ),(0:ℤ)), ((0:ℤ),(1:ℤ)), ((0:ℤ),(2:ℤ))} : Finset Cell) \
        ({((0:ℤ),(0:ℤ))} : Finset Cell)) ((2:ℤ) - 1)
      = Sentence.mk ({((0:ℤ),(1:ℤ)), ((0:ℤ),(2:ℤ))} : Finset Cell) 1 := by decide
  rw [← he]
  exact h

/-- C8 (counterexample): the claim says an out-of-range cell is rejected and
the state is not updated.  The code performs no bounds check on the observed
cell itself: observing `((9,9),3)` on a fresh 8×8 board records the move,
marks `(9,9)` safe, and appends the (empty) sentence `∅ = 3`. -/
theorem c8_out_of_range_processed :
    ¬ inBounds 8 8 ((9:ℤ),(9:ℤ)) ∧
    ((initAI 8 8).add_knowledge ((9:ℤ),(9:ℤ)) 3).moves_made ≠ (initAI 8 8).moves_made ∧
    ((9:ℤ),(9:ℤ)) ∈ ((initAI 8 8).add_knowledge ((9:ℤ),(9:ℤ)) 3).safes ∧
    Sentence.mk (∅ : Finset Cell) 3 ∈
      ((initAI 8 8).add_knowledge ((9:ℤ),(9:ℤ)) 3).knowledge := by
  refine ⟨by decide, by decide, by decide, by decide⟩

/-- C8 (amended): `add_knowledge` validates nothing: every cell, in bounds or
not, is added to `moves_made` and marked safe, and the call completes
normally like any other observation (the neighborhood is simply clipped to
the board). -/
theorem c8_no_rejection (ai : MinesweeperAI) (cell : Cell) (count : ℤ) :
    (ai.add_knowledge cell count).moves_made = insert cell ai.moves_made ∧
    cell ∈ (ai.add_knowledge cell count).safes :=
  ⟨add_knowledge_moves ai cell count,
   add_knowledge_safes_subset ai cell count (Finset.mem_insert_self cell ai.safes)⟩

/-- C9: termination / boundedness.  `add_knowledge` is a total function (the
embedding is structurally recursive), and the single propagation-resolution
pass it performs grows the knowledge list by at most `1` observed sentence
plus one derived sentence per ordered pair, giving the explicit bound below
for every state and observation. -/
theorem c9_add_knowledge_bounded (ai : MinesweeperAI) (cell : Cell) (count : ℤ) :
    (ai.add_knowledge cell count).knowledge.length ≤
      ai.knowledge.length + 1 +
        (ai.knowledge.length + 1) * (ai.knowledge.length + 1) := by
  unfold MinesweeperAI.add_knowledge
  have h2 : (MinesweeperAI.mark_safe
      { ai with moves_made := insert cell ai.moves_made } cell).knowledge.length
        ≤ ai.knowledge.length :=
    mark_safe_knowledge_le _ _
  have h3 := integrateObservation_knowledge_le
    (MinesweeperAI.mark_safe { ai with moves_made := insert cell ai.moves_made } cell)
    cell count
  have h4 := propagateKnown_knowledge_le (integrateObservation
    (MinesweeperAI.mark_safe { ai with moves_made := insert cell ai.moves_made } cell)
    cell count)
  have h5 := resolveInference_knowledge_le (propagateKnown (integrateObservation
    (MinesweeperAI.mark_safe { ai with moves_made := insert cell ai.moves_made } cell)
    cell count))
  have hL : (propagateKnown (integrateObservation
      (MinesweeperAI.mark_safe { ai with moves_made := insert cell ai.moves_made } cell)
      cell count)).knowledge.length ≤ ai.knowledge.length + 1 := by omega
  have hmul := Nat.mul_le_mul hL hL
  omega

/-- C10: `Sentence.mark_mine` performs no validation: whenever the cell is in
the sentence, it removes it and decrements the count by exactly one,
whatever the count's value. -/
theorem c10_mark_mine_unchecked (s : Sentence) (cell : Cell) (hc : cell ∈ s.cells) :
    s.mark_mine cell = Sentence.mk (s.cells.erase cell) (s.count - 1) := by
  unfold Sentence.mark_mine
  rw [if_pos hc]

/-- Witness for C10: on `{(0,0)} = 0`, marking `(0,0)` as a mine returns
normally with the count driven to `-1`. -/
theorem c10_mark_mine_witness :
    (Sentence.mk ({((0:ℤ),(0:ℤ))} : Finset Cell) 0).mark_mine ((0:ℤ),(0:ℤ))
      = Sentence.mk (∅ : Finset Cell) (-1) := by
  rw [c10_mark_mine_unchecked (Sentence.mk ({((0:ℤ),(0:ℤ))} : Finset Cell) 0)
    ((0:ℤ),(0:ℤ)) (by decide)]
  decide

/- `add_knowledge` is fully evaluated (through `decide`) only above this
point; the remaining two witnesses merely apply proved theorems whose
conclusions mention it, so unfolding is disabled to keep elaboration from
normalising the whole computation. -/
attribute [irreducible] MinesweeperAI.add_knowledge

/-- Witness for C5 on a concrete instance: a fresh 2×2 board with no mines;
observing `((0,0),0)` marks the neighbor `(0,1)` safe. -/
theorem c5_zero_count_witness :
    ((0:ℤ),(1:ℤ)) ∈ ((runObs (initAI 2 2) []).add_knowledge ((0:ℤ),(0:ℤ)) 0).safes :=
  c5_zero_count_propagation ∅ 2 2 [] ((0:ℤ),(0:ℤ)) (by decide) (by decide) (by decide)
    ((0:ℤ),(1:ℤ)) (by decide) (by decide) (by decide)

/-- Witness for C6 (amended): a fresh 2×2 board, `observe((1,0),3)`. -/
theorem c6_full_count_witness :
    ((unclassifiedNeighbors (initAI 2 2) ((1:ℤ),(0:ℤ))).card : ℤ)
        = 3 - knownMineNeighborCount (initAI 2 2) ((1:ℤ),(0:ℤ)) ∧
    ((0:ℤ),(0:ℤ)) ∈ ((initAI 2 2).add_knowledge ((1:ℤ),(0:ℤ)) 3).mines :=
  ⟨by decide, c6_full_count_amended (initAI 2 2) ((1:ℤ),(0:ℤ)) 3 (by decide)
    ((0:ℤ),(0:ℤ)) (by decide)⟩
